import Mathlib

/-!
Shallow embedding of `FpuStackSim` from
`src/hotspot/cpu/x86/c1_FpuStackSim_x86.cpp`.

The simulator tracks an 8-slot FPU register stack: an array `_regs` of
integers (virtual register numbers, with `-1` as the "empty" sentinel)
and a signed counter `_stack_size`.  Every operation that in C++ can hit
a fatal `assert` is embedded as a function into `Option`: `none` models
the assertion firing (compilation aborts, no successor state exists),
`some` models normal completion.
-/

set_option maxHeartbeats 1000000

namespace FpuSim

/-- `const int EMPTY = -1;` — sentinel marking an unoccupied slot. -/
def EMPTY : Int := -1

/-- Modelled from the spec: the capacity constant `FrameMap::nof_fpu_regs`
(the architecture's fixed register-stack size `N`, 8 on x86) is supplied
by `c1_FrameMap.hpp`, which is not among the sources; §6 of the spec fixes
it as the constant `N`, with `N = 8` in the §8 scenarios. -/
def nof_fpu_regs : Int := 8

/-- The simulator state: `_stack_size` and the slot array `_regs`. -/
structure FpuStackSim where
  stack_size : Int
  regs : List Int
deriving DecidableEq, Repr

/-- `FpuStackSim::regs_at(int i)`: bounds-asserted read of `_regs[i]`.
`none` models the fatal "out of bounds" assertion (also returned when the
modelled array is shorter than the index, which cannot happen for
well-formed states whose `regs` list has length 8). -/
def regs_at (s : FpuStackSim) (i : Int) : Option Int :=
  if 0 ≤ i ∧ i < nof_fpu_regs then s.regs.get? i.toNat else none

/-- `FpuStackSim::set_regs_at(int i, int val)`: bounds-asserted write. -/
def set_regs_at (s : FpuStackSim) (i v : Int) : Option FpuStackSim :=
  if 0 ≤ i ∧ i < nof_fpu_regs then
    some { s with regs := s.regs.set i.toNat v }
  else none

/-- `FpuStackSim::dec_stack_size()`: decrement, assert no underflow. -/
def dec_stack_size (s : FpuStackSim) : Option FpuStackSim :=
  if 0 ≤ s.stack_size - 1 then some { s with stack_size := s.stack_size - 1 }
  else none

/-- `FpuStackSim::inc_stack_size()`: increment, assert no overflow. -/
def inc_stack_size (s : FpuStackSim) : Option FpuStackSim :=
  if s.stack_size + 1 ≤ nof_fpu_regs then
    some { s with stack_size := s.stack_size + 1 }
  else none

/-- Modelled from the spec: `tos_index()` is declared in
`c1_FpuStackSim.hpp` (not among the sources); §3/§4.1 of the spec define
the top-of-stack index as `size − 1`, which also matches every use site
in the `.cpp` file. -/
def tos_index (s : FpuStackSim) : Int := s.stack_size - 1

/-- The constructor `FpuStackSim::FpuStackSim`: `_stack_size = 0` and
every slot set to `EMPTY` (the loop writes all 8 slots). -/
def init : FpuStackSim :=
  { stack_size := 0, regs := List.replicate 8 EMPTY }

/-- `FpuStackSim::pop()`: clear the top slot, decrement the size. -/
def pop (s : FpuStackSim) : Option FpuStackSim :=
  match set_regs_at s (tos_index s) EMPTY with
  | none => none
  | some s1 => dec_stack_size s1

/-- `FpuStackSim::push(int rnr)`: assert the slot at `_stack_size` is
empty, write `rnr` there, increment the size.  Note that
`regs_at(stack_size())` itself asserts `stack_size() < 8`, so a push at
full capacity already dies inside the read. -/
def push (s : FpuStackSim) (rnr : Int) : Option FpuStackSim :=
  match regs_at s s.stack_size with
  | none => none
  | some v =>
    if v = EMPTY then
      match set_regs_at s s.stack_size rnr with
      | none => none
      | some s1 => inc_stack_size s1
    else none

/-- `FpuStackSim::swap(int offset)`: exchange the slot `offset` below the
top with the top slot.  The C++ reads `regs_at(tos_index() - offset)` and
`regs_at(tos_index())` before either write happens. -/
def swap (s : FpuStackSim) (offset : Int) : Option FpuStackSim :=
  match regs_at s (tos_index s - offset) with
  | none => none
  | some t =>
    match regs_at s (tos_index s) with
    | none => none
    | some top =>
      match set_regs_at s (tos_index s - offset) top with
      | none => none
      | some s1 => set_regs_at s1 (tos_index s) t

/-- The loop of `FpuStackSim::offset_from_tos`: `for (i = tos_index();
i >= 0; i--)`.  Fuel `n + 1` means the next index inspected is `n`;
fuel `0` means the loop is exhausted and the trailing
`assert(false, "register not found")` fires. -/
def offset_scan (s : FpuStackSim) (rnr : Int) : Nat → Option Int
  | 0 => none
  | n + 1 =>
    match regs_at s ((n : Int)) with
    | none => none
    | some v =>
      if v = rnr then some (tos_index s - (n : Int))
      else offset_scan s rnr n

/-- `FpuStackSim::offset_from_tos(int rnr)` in a verification (`ASSERT`)
build: scan from the top down; if `rnr` is not found the assertion fires
(`none`). -/
def offset_from_tos (s : FpuStackSim) (rnr : Int) : Option Int :=
  offset_scan s rnr s.stack_size.toNat

/-- Modelled from the spec: a product build strips the assert in
`regs_at`, so the read is the raw array access (§4.1); only in-bounds
indices are ever reached by the scan on well-formed states. -/
def regs_at_product (s : FpuStackSim) (i : Int) : Int :=
  s.regs.getD i.toNat 0

/-- Modelled from the spec: `FpuStackSim::offset_from_tos` in a product
(assertion-stripped) build.  The `BAILOUT_` macro comes from
`c1_Compilation.hpp`, which is not among the sources; §7 of the spec
describes it as returning the sentinel `0` while abandoning the
compilation unit.  The Boolean component is the bail-out flag. -/
def offset_scan_product (s : FpuStackSim) (rnr : Int) : Nat → Int × Bool
  | 0 => (0, true)
  | n + 1 =>
    if regs_at_product s ((n : Int)) = rnr then
      (tos_index s - (n : Int), false)
    else offset_scan_product s rnr n

/-- Product-build `offset_from_tos`: result value and bail-out flag. -/
def offset_from_tos_product (s : FpuStackSim) (rnr : Int) : Int × Bool :=
  offset_scan_product s rnr s.stack_size.toNat

/-- `FpuStackSim::get_slot(int tos_offset)`: depth-relative read. -/
def get_slot (s : FpuStackSim) (tos_offset : Int) : Option Int :=
  regs_at s (tos_index s - tos_offset)

/-- `FpuStackSim::set_slot(int tos_offset, int rnr)`: depth-relative
write; the only check is the bounds assert inside `set_regs_at`. -/
def set_slot (s : FpuStackSim) (tos_offset rnr : Int) : Option FpuStackSim :=
  set_regs_at s (tos_index s - tos_offset) rnr

/-- The loop of `FpuStackSim::rename`: ascending over `[0, stack_size)`.
At index `i` (with `fuel` iterations left) the C++ first asserts
`regs_at(i) != new_rnr`, then rewrites the slot when it holds `old_rnr`.
Returns the final state and the `found` flag. -/
def rename_scan (old_rnr new_rnr : Int) :
    FpuStackSim → Nat → Nat → Bool → Option (FpuStackSim × Bool)
  | s, _, 0, found => some (s, found)
  | s, i, n + 1, found =>
    match regs_at s ((i : Int)) with
    | none => none
    | some v =>
      if v = new_rnr then none
      else if v = old_rnr then
        match set_regs_at s ((i : Int)) new_rnr with
        | none => none
        | some s1 => rename_scan old_rnr new_rnr s1 (i + 1) n true
      else rename_scan old_rnr new_rnr s (i + 1) n found

/-- `FpuStackSim::rename(int old_rnr, int new_rnr)`: fast path when the
names coincide, otherwise rewrite all occurrences and assert that at
least one slot was renamed. -/
def rename (s : FpuStackSim) (old_rnr new_rnr : Int) : Option FpuStackSim :=
  if old_rnr = new_rnr then some s
  else
    match rename_scan old_rnr new_rnr s 0 s.stack_size.toNat false with
    | none => none
    | some (s1, found) => if found then some s1 else none

/-- The loop of `FpuStackSim::contains`: ascending over `[0, stack_size)`,
index `i` with `fuel` iterations left. -/
def contains_scan (s : FpuStackSim) (rnr : Int) : Nat → Nat → Option Bool
  | _, 0 => some false
  | i, n + 1 =>
    match regs_at s ((i : Int)) with
    | none => none
    | some v => if v = rnr then some true else contains_scan s rnr (i + 1) n

/-- `FpuStackSim::contains(int rnr)`: membership in the occupied range. -/
def contains (s : FpuStackSim) (rnr : Int) : Option Bool :=
  contains_scan s rnr 0 s.stack_size.toNat

/-- The `ASSERT`-build check inside `is_empty`: every one of the 8 slots
must read as `EMPTY`; `none` models the assertion firing. -/
def slots_all_empty (s : FpuStackSim) : Nat → Nat → Option Unit
  | _, 0 => some ()
  | i, n + 1 =>
    match regs_at s ((i : Int)) with
    | none => none
    | some v => if v = EMPTY then slots_all_empty s (i + 1) n else none

/-- `FpuStackSim::is_empty()` in a verification build. -/
def is_empty (s : FpuStackSim) : Option Bool :=
  if s.stack_size = 0 then
    match slots_all_empty s 0 nof_fpu_regs.toNat with
    | none => none
    | some _ => some true
  else some false

/-- The loop of `FpuStackSim::clear`: `for (i = tos_index(); i >= 0; i--)`
setting each slot to `EMPTY`; fuel `n + 1` clears index `n` next. -/
def clear_scan : FpuStackSim → Nat → Option FpuStackSim
  | s, 0 => some s
  | s, n + 1 =>
    match set_regs_at s ((n : Int)) EMPTY with
    | none => none
    | some s1 => clear_scan s1 n

/-- `FpuStackSim::clear()`: clear all occupied slots, reset the size. -/
def clear (s : FpuStackSim) : Option FpuStackSim :=
  match clear_scan s s.stack_size.toNat with
  | none => none
  | some s1 => some { s1 with stack_size := 0 }

/-- The loop of `FpuStackSim::write_state`: append `regs_at(i)` for
`i` in `[0, 8)`; index `i` with `fuel` iterations left. -/
def write_scan (s : FpuStackSim) : Nat → Nat → Option (List Int)
  | _, 0 => some []
  | i, n + 1 =>
    match regs_at s ((i : Int)) with
    | none => none
    | some v =>
      match write_scan s (i + 1) n with
      | none => none
      | some l => some (v :: l)

/-- `FpuStackSim::write_state()`: serialize `{stack_size, regs[0..7]}`
into a fresh 9-element integer sequence. -/
def write_state (s : FpuStackSim) : Option (List Int) :=
  match write_scan s 0 nof_fpu_regs.toNat with
  | none => none
  | some l => some (s.stack_size :: l)

/-- The loop of `FpuStackSim::read_state`: `set_regs_at(i, at(1+i))` for
`i` in `[0, 8)`; `at` is the bounds-asserted `GrowableArray` read. -/
def read_scan (arr : List Int) : FpuStackSim → Nat → Nat → Option FpuStackSim
  | s, _, 0 => some s
  | s, i, n + 1 =>
    match arr.get? (1 + i) with
    | none => none
    | some v =>
      match set_regs_at s ((i : Int)) v with
      | none => none
      | some s1 => read_scan arr s1 (i + 1) n

/-- `FpuStackSim::read_state(intArray*)`: overwrite `_stack_size` from
`at(0)` and every slot from `at(1+i)`. -/
def read_state (s : FpuStackSim) (arr : List Int) : Option FpuStackSim :=
  match arr.get? 0 with
  | none => none
  | some sz => read_scan arr { s with stack_size := sz } 0 nof_fpu_regs.toNat

/-- Slot `i` of a state, as a total function (default `EMPTY` off the
end, which well-formed states never exercise). -/
def slotAt (s : FpuStackSim) (i : Nat) : Int := s.regs.getD i EMPTY

/-- State-threaded reading accessor: the value read together with the
state the (const, write-free) method body leaves behind; used to state
the frame properties of the query operations. -/
def regs_at_st (s : FpuStackSim) (i : Int) : Option (Int × FpuStackSim) :=
  match regs_at s i with
  | none => none
  | some v => some (v, s)

/-- State-threaded loop of `FpuStackSim::contains`. -/
def contains_scan_st (rnr : Int) :
    FpuStackSim → Nat → Nat → Option (Bool × FpuStackSim)
  | s, _, 0 => some (false, s)
  | s, i, n + 1 =>
    match regs_at_st s ((i : Int)) with
    | none => none
    | some (v, s1) =>
      if v = rnr then some (true, s1) else contains_scan_st rnr s1 (i + 1) n

/-- State-threaded `FpuStackSim::contains`. -/
def contains_st (s : FpuStackSim) (rnr : Int) : Option (Bool × FpuStackSim) :=
  contains_scan_st rnr s 0 s.stack_size.toNat

/-- State-threaded `ASSERT`-build slot check inside `is_empty`. -/
def slots_all_empty_st : FpuStackSim → Nat → Nat → Option FpuStackSim
  | s, _, 0 => some s
  | s, i, n + 1 =>
    match regs_at_st s ((i : Int)) with
    | none => none
    | some (v, s1) =>
      if v = EMPTY then slots_all_empty_st s1 (i + 1) n else none

/-- State-threaded `FpuStackSim::is_empty`. -/
def is_empty_st (s : FpuStackSim) : Option (Bool × FpuStackSim) :=
  if s.stack_size = 0 then
    match slots_all_empty_st s 0 nof_fpu_regs.toNat with
    | none => none
    | some s1 => some (true, s1)
  else some (false, s)

/-- State-threaded loop of `FpuStackSim::offset_from_tos`. -/
def offset_scan_st (rnr : Int) :
    FpuStackSim → Nat → Option (Int × FpuStackSim)
  | _, 0 => none
  | s, n + 1 =>
    match regs_at_st s ((n : Int)) with
    | none => none
    | some (v, s1) =>
      if v = rnr then some (tos_index s1 - (n : Int), s1)
      else offset_scan_st rnr s1 n

/-- State-threaded `FpuStackSim::offset_from_tos` (verification build). -/
def offset_from_tos_st (s : FpuStackSim) (rnr : Int) :
    Option (Int × FpuStackSim) :=
  offset_scan_st rnr s s.stack_size.toNat

/-- State-threaded `FpuStackSim::get_slot`. -/
def get_slot_st (s : FpuStackSim) (tos_offset : Int) :
    Option (Int × FpuStackSim) :=
  regs_at_st s (tos_index s - tos_offset)

/-- The core invariant of §3: the `regs` array has the fixed capacity 8,
the size counter is in `[0, 8]`, slots `[0, size)` are non-empty and
slots `[size, 8)` are empty. -/
def Inv (s : FpuStackSim) : Prop :=
  s.regs.length = 8 ∧ 0 ≤ s.stack_size ∧ s.stack_size ≤ 8 ∧
  (∀ i : Nat, i < s.stack_size.toNat → slotAt s i ≠ EMPTY) ∧
  (∀ i : Nat, i < 8 → s.stack_size.toNat ≤ i → slotAt s i = EMPTY)

instance (s : FpuStackSim) : Decidable (Inv s) := by
  unfold Inv; infer_instance

/-- No two occupied slots claim the same virtual identity (§4.2). -/
def NoDupIds (s : FpuStackSim) : Prop :=
  ∀ i : Nat, i < s.stack_size.toNat → ∀ j : Nat, j < s.stack_size.toNat →
    i ≠ j → slotAt s i ≠ slotAt s j

instance (s : FpuStackSim) : Decidable (NoDupIds s) := by
  unfold NoDupIds; infer_instance

/-- The full structural invariant including distinctness of ids. -/
def CoreInv (s : FpuStackSim) : Prop := Inv s ∧ NoDupIds s

instance (s : FpuStackSim) : Decidable (CoreInv s) := by
  unfold CoreInv; infer_instance

/-- A push/pop event for the §8 sequence property. -/
inductive Op where
  | push (rnr : Int)
  | pop
deriving DecidableEq, Repr

/-- One step of a push/pop sequence. -/
def runOp (s : FpuStackSim) : Op → Option FpuStackSim
  | Op.push r => push s r
  | Op.pop => pop s

/-- Run a sequence of push/pop events from a state; `none` as soon as
any step dies in an assertion. -/
def run (s : FpuStackSim) : List Op → Option FpuStackSim
  | [] => some s
  | o :: rest =>
    match runOp s o with
    | none => none
    | some s1 => run s1 rest

/-- Number of pushes in a sequence. -/
def pushCount : List Op → Int
  | [] => 0
  | Op.push _ :: r => pushCount r + 1
  | Op.pop :: r => pushCount r

/-- Number of pops in a sequence. -/
def popCount : List Op → Int
  | [] => 0
  | Op.push _ :: r => popCount r
  | Op.pop :: r => popCount r + 1

/-- The claim's precondition on a sequence, tracked against the running
size `n`: each push requires `n < 8` (pushes never exceed the capacity),
each pop requires `0 < n` (pops never exceed the current size). -/
def validFromB (n : Int) : List Op → Bool
  | [] => true
  | Op.push _ :: r => decide (n < 8) && validFromB (n + 1) r
  | Op.pop :: r => decide (0 < n) && validFromB (n - 1) r

/-- No pushed value is the empty sentinel. -/
def goodValues : List Op → Bool
  | [] => true
  | Op.push r :: rest => decide (r ≠ EMPTY) && goodValues rest
  | Op.pop :: rest => goodValues rest

/-! ### Helper lemmas about the accessors -/

theorem regs_at_some (s : FpuStackSim) (i : Int) (hlen : s.regs.length = 8)
    (h0 : 0 ≤ i) (h8 : i < 8) : regs_at s i = some (slotAt s i.toNat) := by
  have hi : i.toNat < s.regs.length := by omega
  unfold regs_at nof_fpu_regs slotAt
  rw [if_pos ⟨h0, h8⟩, List.getD_eq_getElem?_getD, List.get?_eq_getElem?,
    List.getElem?_eq_getElem hi]
  rfl

theorem regs_at_none (s : FpuStackSim) (i : Int) (h : ¬(0 ≤ i ∧ i < 8)) :
    regs_at s i = none := by
  unfold regs_at nof_fpu_regs
  rw [if_neg h]

theorem set_regs_at_some (s : FpuStackSim) (i v : Int) (h0 : 0 ≤ i)
    (h8 : i < 8) :
    set_regs_at s i v = some { s with regs := s.regs.set i.toNat v } := by
  unfold set_regs_at nof_fpu_regs
  rw [if_pos ⟨h0, h8⟩]

theorem set_regs_at_none (s : FpuStackSim) (i v : Int) (h : ¬(0 ≤ i ∧ i < 8)) :
    set_regs_at s i v = none := by
  unfold set_regs_at nof_fpu_regs
  rw [if_neg h]

theorem getD_set_self (l : List Int) (i : Nat) (v : Int) (h : i < l.length) :
    (l.set i v).getD i EMPTY = v := by
  rw [List.getD_eq_getElem?_getD, List.getElem?_set_self',
    List.getElem?_eq_getElem h]
  rfl

theorem getD_set_ne (l : List Int) (i j : Nat) (v : Int) (h : i ≠ j) :
    (l.set i v).getD j EMPTY = l.getD j EMPTY := by
  rw [List.getD_eq_getElem?_getD, List.getElem?_set_ne h,
    ← List.getD_eq_getElem?_getD]

theorem length_eight (l : List Int) (h : l.length = 8) :
    ∃ a0 a1 a2 a3 a4 a5 a6 a7 : Int,
      l = [a0, a1, a2, a3, a4, a5, a6, a7] := by
  obtain _ | ⟨a0, l⟩ := l; · simp only [List.length_nil] at h; omega
  obtain _ | ⟨a1, l⟩ := l
  · simp only [List.length_cons, List.length_nil] at h; omega
  obtain _ | ⟨a2, l⟩ := l
  · simp only [List.length_cons, List.length_nil] at h; omega
  obtain _ | ⟨a3, l⟩ := l
  · simp only [List.length_cons, List.length_nil] at h; omega
  obtain _ | ⟨a4, l⟩ := l
  · simp only [List.length_cons, List.length_nil] at h; omega
  obtain _ | ⟨a5, l⟩ := l
  · simp only [List.length_cons, List.length_nil] at h; omega
  obtain _ | ⟨a6, l⟩ := l
  · simp only [List.length_cons, List.length_nil] at h; omega
  obtain _ | ⟨a7, l⟩ := l
  · simp only [List.length_cons, List.length_nil] at h; omega
  obtain _ | ⟨a8, l⟩ := l
  · exact ⟨a0, a1, a2, a3, a4, a5, a6, a7, rfl⟩
  · simp only [List.length_cons, List.length_nil] at h; omega

theorem getD_eq_getD (l : List Int) (i : Nat) (h : i < l.length)
    (d1 d2 : Int) : l.getD i d1 = l.getD i d2 := by
  rw [List.getD_eq_getElem?_getD, List.getD_eq_getElem?_getD,
    List.getElem?_eq_getElem h]
  rfl

theorem set_getD_self (l : List Int) (i : Nat) (h : i < l.length) :
    l.set i (l.getD i EMPTY) = l := by
  apply List.ext_getElem?
  intro j
  by_cases hj : i = j
  · subst hj
    rw [List.getElem?_set_self', List.getD_eq_getElem?_getD,
      List.getElem?_eq_getElem h]
    rfl
  · rw [List.getElem?_set_ne hj]

/-- Evaluation of `swap` when both computed indices pass the bounds
assertion: the two slots are transposed and nothing else changes. -/
theorem swap_eq (s : FpuStackSim) (offset : Int) (hlen : s.regs.length = 8)
    (ha0 : 0 ≤ tos_index s - offset) (ha8 : tos_index s - offset < 8)
    (hb0 : 0 ≤ tos_index s) (hb8 : tos_index s < 8) :
    swap s offset = some { s with regs := List.set (List.set s.regs (tos_index s - offset).toNat (slotAt s (tos_index s).toNat)) (tos_index s).toNat (slotAt s (tos_index s - offset).toNat) } := by
  unfold swap
  simp only [regs_at_some s _ hlen ha0 ha8, regs_at_some s _ hlen hb0 hb8,
    set_regs_at_some s _ _ ha0 ha8]
  rw [set_regs_at_some _ _ _ hb0 hb8]

/-- Transposing slots `a` and `t` of a list and then transposing them
again restores the original list. -/
theorem swap_list_involution (l : List Int) (a t : Nat) (ha : a < l.length)
    (ht : t < l.length) :
    ((((l.set a (l.getD t EMPTY)).set t (l.getD a EMPTY)).set a
        (((l.set a (l.getD t EMPTY)).set t (l.getD a EMPTY)).getD t EMPTY)).set t
        (((l.set a (l.getD t EMPTY)).set t (l.getD a EMPTY)).getD a EMPTY)) = l := by
  by_cases hat : a = t
  · subst hat
    simp only [List.set_set]
    rw [getD_set_self l a (l.getD a EMPTY) ha, set_getD_self l a ha]
  · have hta : t ≠ a := fun h => hat h.symm
    have hXt : ((l.set a (l.getD t EMPTY)).set t (l.getD a EMPTY)).getD t EMPTY
        = l.getD a EMPTY :=
      getD_set_self _ t _ (by rw [List.length_set]; exact ht)
    have hXa : ((l.set a (l.getD t EMPTY)).set t (l.getD a EMPTY)).getD a EMPTY
        = l.getD t EMPTY := by
      rw [getD_set_ne _ t a _ hta,
        getD_set_self l a (l.getD t EMPTY) ha]
    rw [hXt, hXa, List.set_comm _ _ _ hta, List.set_set, List.set_set,
      set_getD_self l a ha, set_getD_self l t ht]

/-! ### C6 — overflow and underflow are fatal -/

/-- C6: a `push` on a state whose size is already the capacity 8 dies in
a fatal assertion (the bounds assert inside `regs_at(stack_size())`
fires before anything is written), and a `pop` on a state of size 0 dies
in a fatal assertion (the bounds assert inside
`set_regs_at(tos_index())` fires); neither is silently truncated or
clamped — no successor state is produced in either case. -/
theorem c6_overflow_underflow_fatal (s t : FpuStackSim) (v : Int)
    (hs : s.stack_size = 8) (ht : t.stack_size = 0) :
    push s v = none ∧ pop t = none := by
  constructor
  · have h : regs_at s s.stack_size = none := by
      rw [hs]; exact regs_at_none s 8 (by omega)
    unfold push
    rw [h]
  · have h : set_regs_at t (tos_index t) EMPTY = none := by
      unfold tos_index; rw [ht]
      exact set_regs_at_none t (0 - 1) EMPTY (by omega)
    unfold pop
    rw [h]

theorem c6_overflow_underflow_fatal_witness :
    (⟨8, [0, 1, 2, 3, 4, 5, 6, 7]⟩ : FpuStackSim).stack_size = 8 ∧
    (⟨0, [-1, -1, -1, -1, -1, -1, -1, -1]⟩ : FpuStackSim).stack_size = 0 ∧
    (push ⟨8, [0, 1, 2, 3, 4, 5, 6, 7]⟩ 9 = none ∧
      pop ⟨0, [-1, -1, -1, -1, -1, -1, -1, -1]⟩ = none) :=
  ⟨rfl, rfl, c6_overflow_underflow_fatal _ _ 9 rfl rfl⟩

/-! ### C10 — `set_slot` checks only bounds, not the invariant -/

/-- C10: `set_slot` enforces only the bounds check on the computed slot
index.  On the invariant-satisfying state `⟨2, [5,7,-1,…]⟩`, writing the
empty sentinel into the occupied top slot succeeds without any assertion
and leaves a state violating the invariant (slot 1 is empty though
`1 < size`); likewise writing the id `7` (already present at depth 0)
into the slot at depth 1 succeeds and leaves two occupied slots claiming
the same virtual identity. -/
theorem c10_set_slot_breaks_invariant :
    CoreInv ⟨2, [5, 7, -1, -1, -1, -1, -1, -1]⟩ ∧
    set_slot ⟨2, [5, 7, -1, -1, -1, -1, -1, -1]⟩ 0 EMPTY =
      some ⟨2, [5, -1, -1, -1, -1, -1, -1, -1]⟩ ∧
    ¬CoreInv ⟨2, [5, -1, -1, -1, -1, -1, -1, -1]⟩ ∧
    set_slot ⟨2, [5, 7, -1, -1, -1, -1, -1, -1]⟩ 1 7 =
      some ⟨2, [7, 7, -1, -1, -1, -1, -1, -1]⟩ ∧
    ¬CoreInv ⟨2, [7, 7, -1, -1, -1, -1, -1, -1]⟩ := by
  decide

/-! ### C9 — which depths the depth-relative operations accept -/

/-- C9 counterexample: the claim says every depth outside `[0, size)`
makes the computed index fall outside `[0, 8)` and triggers the fatal
assertion.  On the invariant-satisfying state `⟨3, [5,7,2,-1,…]⟩` the
depth `-4` is outside `[0, 3)`, yet the computed index `2 - (-4) = 6`
is inside `[0, 8)` and `get_slot`, `set_slot` and `swap` all succeed
without any assertion. -/
theorem c9_counterexample :
    CoreInv ⟨3, [5, 7, 2, -1, -1, -1, -1, -1]⟩ ∧
    ¬(0 ≤ (-4 : Int) ∧ (-4 : Int) < (3 : Int)) ∧
    get_slot ⟨3, [5, 7, 2, -1, -1, -1, -1, -1]⟩ (-4) = some (-1) ∧
    set_slot ⟨3, [5, 7, 2, -1, -1, -1, -1, -1]⟩ (-4) 9 =
      some ⟨3, [5, 7, 2, -1, -1, -1, 9, -1]⟩ ∧
    swap ⟨3, [5, 7, 2, -1, -1, -1, -1, -1]⟩ (-4) =
      some ⟨3, [5, 7, -1, -1, -1, -1, 2, -1]⟩ := by
  decide

/-- C9 (amended): `get_slot(d)` and `set_slot(d, v)` are defined exactly
when the computed index `tos_index() - d` lies in `[0, 8)`, and
`swap(d)` is defined exactly when both that index and `tos_index()`
itself lie in `[0, 8)`; whenever a computed index falls outside `[0, 8)`
the fatal out-of-bounds assertion fires and no successor state is
produced (so no slot is modified).  For non-negative depths this gives
the original claim — a depth in `[size, ∞)` makes the index negative —
but a negative depth whose index happens to land inside `[0, 8)` is
accepted. -/
theorem c9_amended_depth_bounds (s : FpuStackSim) (d v : Int)
    (hlen : s.regs.length = 8) :
    (get_slot s d = none ↔ ¬(0 ≤ tos_index s - d ∧ tos_index s - d < 8)) ∧
    (set_slot s d v = none ↔ ¬(0 ≤ tos_index s - d ∧ tos_index s - d < 8)) ∧
    (¬(0 ≤ tos_index s - d ∧ tos_index s - d < 8) ∨
        ¬(0 ≤ tos_index s ∧ tos_index s < 8) → swap s d = none) ∧
    ((0 ≤ tos_index s - d ∧ tos_index s - d < 8) ∧
        (0 ≤ tos_index s ∧ tos_index s < 8) →
      ∃ s1, swap s d = some s1) := by
  refine ⟨?_, ?_, ?_, ?_⟩
  · by_cases h : 0 ≤ tos_index s - d ∧ tos_index s - d < 8
    · unfold get_slot
      rw [regs_at_some s _ hlen h.1 h.2]
      exact iff_of_false (by simp) (not_not_intro h)
    · unfold get_slot
      rw [regs_at_none s _ h]
      exact iff_of_true rfl h
  · by_cases h : 0 ≤ tos_index s - d ∧ tos_index s - d < 8
    · unfold set_slot
      rw [set_regs_at_some s _ v h.1 h.2]
      exact iff_of_false (by simp) (not_not_intro h)
    · unfold set_slot
      rw [set_regs_at_none s _ v h]
      exact iff_of_true rfl h
  · intro h
    by_cases ha : 0 ≤ tos_index s - d ∧ tos_index s - d < 8
    · have hb : ¬(0 ≤ tos_index s ∧ tos_index s < 8) := by tauto
      unfold swap
      simp only [regs_at_some s _ hlen ha.1 ha.2, regs_at_none s _ hb]
    · unfold swap
      simp only [regs_at_none s _ ha]
  · rintro ⟨ha, hb⟩
    exact ⟨_, swap_eq s d hlen ha.1 ha.2 hb.1 hb.2⟩

theorem c9_amended_depth_bounds_witness :
    (⟨3, [5, 7, 2, -1, -1, -1, -1, -1]⟩ : FpuStackSim).regs.length = 8 ∧
    ((get_slot ⟨3, [5, 7, 2, -1, -1, -1, -1, -1]⟩ 5 = none ↔
        ¬(0 ≤ tos_index ⟨3, [5, 7, 2, -1, -1, -1, -1, -1]⟩ - 5 ∧
          tos_index ⟨3, [5, 7, 2, -1, -1, -1, -1, -1]⟩ - 5 < 8)) ∧
      (set_slot ⟨3, [5, 7, 2, -1, -1, -1, -1, -1]⟩ 5 9 = none ↔
        ¬(0 ≤ tos_index ⟨3, [5, 7, 2, -1, -1, -1, -1, -1]⟩ - 5 ∧
          tos_index ⟨3, [5, 7, 2, -1, -1, -1, -1, -1]⟩ - 5 < 8)) ∧
      (¬(0 ≤ tos_index ⟨3, [5, 7, 2, -1, -1, -1, -1, -1]⟩ - 5 ∧
            tos_index ⟨3, [5, 7, 2, -1, -1, -1, -1, -1]⟩ - 5 < 8) ∨
          ¬(0 ≤ tos_index ⟨3, [5, 7, 2, -1, -1, -1, -1, -1]⟩ ∧
            tos_index ⟨3, [5, 7, 2, -1, -1, -1, -1, -1]⟩ < 8) →
        swap ⟨3, [5, 7, 2, -1, -1, -1, -1, -1]⟩ 5 = none) ∧
      ((0 ≤ tos_index ⟨3, [5, 7, 2, -1, -1, -1, -1, -1]⟩ - 5 ∧
            tos_index ⟨3, [5, 7, 2, -1, -1, -1, -1, -1]⟩ - 5 < 8) ∧
          (0 ≤ tos_index ⟨3, [5, 7, 2, -1, -1, -1, -1, -1]⟩ ∧
            tos_index ⟨3, [5, 7, 2, -1, -1, -1, -1, -1]⟩ < 8) →
        ∃ s1, swap ⟨3, [5, 7, 2, -1, -1, -1, -1, -1]⟩ 5 = some s1)) :=
  ⟨rfl, c9_amended_depth_bounds _ 5 9 rfl⟩

/-! ### C2 — snapshot round trip -/

/-- C2: `write_state` on any well-formed state `s1` succeeds and
produces a 9-element snapshot; `read_state` of that snapshot onto any
well-formed state `s2` yields exactly `s1` — identical size counter and
all 8 slots, occupied or not.  In particular restoring onto `s1` itself
leaves the state unchanged. -/
theorem c2_capture_restore_roundtrip (s1 s2 : FpuStackSim)
    (h1 : s1.regs.length = 8) (h2 : s2.regs.length = 8) :
    ∃ arr, write_state s1 = some arr ∧ read_state s2 arr = some s1 ∧
      read_state s1 arr = some s1 := by
  obtain ⟨a0, a1, a2, a3, a4, a5, a6, a7, ha⟩ := length_eight s1.regs h1
  obtain ⟨b0, b1, b2, b3, b4, b5, b6, b7, hb⟩ := length_eight s2.regs h2
  obtain ⟨n1, r1⟩ := s1
  obtain ⟨n2, r2⟩ := s2
  simp only at ha hb
  subst ha hb
  exact ⟨[n1, a0, a1, a2, a3, a4, a5, a6, a7], rfl, rfl, rfl⟩

theorem c2_capture_restore_roundtrip_witness :
    (⟨3, [5, 7, 2, -1, -1, -1, -1, -1]⟩ : FpuStackSim).regs.length = 8 ∧
    (⟨5, [9, 9, 9, 9, 9, 9, 9, 9]⟩ : FpuStackSim).regs.length = 8 ∧
    ∃ arr, write_state ⟨3, [5, 7, 2, -1, -1, -1, -1, -1]⟩ = some arr ∧
      read_state ⟨5, [9, 9, 9, 9, 9, 9, 9, 9]⟩ arr =
        some ⟨3, [5, 7, 2, -1, -1, -1, -1, -1]⟩ ∧
      read_state ⟨3, [5, 7, 2, -1, -1, -1, -1, -1]⟩ arr =
        some ⟨3, [5, 7, 2, -1, -1, -1, -1, -1]⟩ :=
  ⟨rfl, rfl, c2_capture_restore_roundtrip _ _ rfl rfl⟩

/-! ### C3 — exchange is a self-inverse, size-preserving operation -/

/-- C3: whenever `swap(offset)` is defined — both the computed index
`tos_index() - offset` and `tos_index()` itself pass the bounds
assertion — a single `swap` never changes the size counter, applying
`swap(offset)` twice restores the prior slot contents exactly, and
`swap(0)` leaves the state unchanged. -/
theorem c3_swap_self_inverse (s : FpuStackSim) (offset : Int)
    (hlen : s.regs.length = 8)
    (ha0 : 0 ≤ tos_index s - offset) (ha8 : tos_index s - offset < 8)
    (hb0 : 0 ≤ tos_index s) (hb8 : tos_index s < 8) :
    (∃ s1, swap s offset = some s1 ∧ s1.stack_size = s.stack_size ∧
      swap s1 offset = some s) ∧
    swap s 0 = some s := by
  obtain ⟨n, l⟩ := s
  dsimp only [tos_index] at ha0 ha8 hb0 hb8
  dsimp only at hlen
  have hA : (n - 1 - offset).toNat < l.length := by omega
  have hT : (n - 1).toNat < l.length := by omega
  have h1 := swap_eq ⟨n, l⟩ offset hlen ha0 ha8 hb0 hb8
  dsimp only [tos_index, slotAt] at h1
  constructor
  · refine ⟨_, h1, rfl, ?_⟩
    have h2 := swap_eq ⟨n, List.set (List.set l (n - 1 - offset).toNat (l.getD (n - 1).toNat EMPTY)) (n - 1).toNat (l.getD (n - 1 - offset).toNat EMPTY)⟩ offset (by simp only [List.length_set]; exact hlen) ha0 ha8 hb0 hb8
    dsimp only [tos_index, slotAt] at h2
    rw [h2, swap_list_involution l (n - 1 - offset).toNat (n - 1).toNat hA hT]
  · have h0 := swap_eq ⟨n, l⟩ 0 hlen
      (by dsimp only [tos_index]; omega) (by dsimp only [tos_index]; omega)
      hb0 hb8
    dsimp only [tos_index, slotAt] at h0
    rw [sub_zero] at h0
    rw [h0, List.set_set, set_getD_self l (n - 1).toNat hT]

theorem c3_swap_self_inverse_witness :
    (⟨3, [5, 7, 2, -1, -1, -1, -1, -1]⟩ : FpuStackSim).regs.length = 8 ∧
    ((∃ s1, swap ⟨3, [5, 7, 2, -1, -1, -1, -1, -1]⟩ 2 = some s1 ∧
        s1.stack_size =
          (⟨3, [5, 7, 2, -1, -1, -1, -1, -1]⟩ : FpuStackSim).stack_size ∧
        swap s1 2 = some ⟨3, [5, 7, 2, -1, -1, -1, -1, -1]⟩) ∧
      swap ⟨3, [5, 7, 2, -1, -1, -1, -1, -1]⟩ 0 =
        some ⟨3, [5, 7, 2, -1, -1, -1, -1, -1]⟩) :=
  ⟨rfl, c3_swap_self_inverse _ 2 rfl (by decide) (by decide) (by decide)
    (by decide)⟩

/-! ### C7 — depth lookup of an absent value -/

theorem offset_scan_absent (s : FpuStackSim) (v : Int)
    (hlen : s.regs.length = 8) :
    ∀ n : Nat, n ≤ 8 → (∀ i : Nat, i < n → slotAt s i ≠ v) →
      offset_scan s v n = none ∧ offset_scan_product s v n = (0, true) := by
  intro n
  induction n with
  | zero => exact fun _ _ => ⟨rfl, rfl⟩
  | succ k ih =>
    intro hn habs
    have hk : regs_at s (k : Int) = some (slotAt s k) :=
      regs_at_some s (k : Int) hlen (by omega) (by omega)
    have hkp : regs_at_product s (k : Int) = slotAt s k :=
      getD_eq_getD s.regs k (by omega) 0 EMPTY
    have hne : slotAt s k ≠ v := habs k (by omega)
    have hrest := ih (by omega) (fun i hi => habs i (by omega))
    constructor
    · simp only [offset_scan, hk]
      rw [if_neg hne]
      exact hrest.1
    · simp only [offset_scan_product, hkp]
      rw [if_neg hne]
      exact hrest.2

/-- C7: if `v` does not occur in any occupied slot, the verification
(`ASSERT`) build of `offset_from_tos` runs off the scan and hits the
`assert(false, "register not found")` — no value is returned — while
the assertion-stripped (product) build returns the sentinel `0` and
raises the bail-out flag of the enclosing compilation instead of
propagating a wrong depth. -/
theorem c7_absent_value_bails_out (s : FpuStackSim) (v : Int)
    (hlen : s.regs.length = 8) (h0 : 0 ≤ s.stack_size)
    (h8 : s.stack_size ≤ 8)
    (habs : ∀ i : Nat, i < s.stack_size.toNat → slotAt s i ≠ v) :
    offset_from_tos s v = none ∧ offset_from_tos_product s v = (0, true) :=
  offset_scan_absent s v hlen s.stack_size.toNat (by omega) habs

theorem c7_absent_value_bails_out_witness :
    (⟨2, [5, 7, -1, -1, -1, -1, -1, -1]⟩ : FpuStackSim).regs.length = 8 ∧
    (0 : Int) ≤ (⟨2, [5, 7, -1, -1, -1, -1, -1, -1]⟩ : FpuStackSim).stack_size ∧
    (⟨2, [5, 7, -1, -1, -1, -1, -1, -1]⟩ : FpuStackSim).stack_size ≤ 8 ∧
    (offset_from_tos ⟨2, [5, 7, -1, -1, -1, -1, -1, -1]⟩ 9 = none ∧
      offset_from_tos_product ⟨2, [5, 7, -1, -1, -1, -1, -1, -1]⟩ 9 =
        (0, true)) :=
  ⟨rfl, by decide, by decide,
    c7_absent_value_bails_out _ 9 rfl (by decide) (by decide) (by decide)⟩

/-! ### C8 — queries do not mutate the state -/

theorem regs_at_st_state (s : FpuStackSim) (i v : Int) (s1 : FpuStackSim)
    (h : regs_at_st s i = some (v, s1)) : s1 = s := by
  cases hr : regs_at s i with
  | none => simp [regs_at_st, hr] at h
  | some w =>
    simp [regs_at_st, hr] at h
    exact h.2.symm

theorem contains_scan_st_state (rnr : Int) :
    ∀ (n i : Nat) (s : FpuStackSim) (b : Bool) (s1 : FpuStackSim),
      contains_scan_st rnr s i n = some (b, s1) → s1 = s := by
  intro n
  induction n with
  | zero =>
    intro i s b s1 h
    simp [contains_scan_st] at h
    exact h.2.symm
  | succ k ih =>
    intro i s b s1 h
    simp only [contains_scan_st] at h
    cases hr : regs_at_st s ((i : Int)) with
    | none => simp [hr] at h
    | some p =>
      obtain ⟨v, s2⟩ := p
      have hs2 : s2 = s := regs_at_st_state s _ v s2 hr
      simp only [hr] at h
      by_cases hv : v = rnr
      · rw [if_pos hv] at h
        simp at h
        exact h.2.symm.trans hs2
      · rw [if_neg hv] at h
        exact (ih (i + 1) s2 b s1 h).trans hs2

theorem slots_all_empty_st_state :
    ∀ (n i : Nat) (s s1 : FpuStackSim),
      slots_all_empty_st s i n = some s1 → s1 = s := by
  intro n
  induction n with
  | zero =>
    intro i s s1 h
    simp [slots_all_empty_st] at h
    exact h.symm
  | succ k ih =>
    intro i s s1 h
    simp only [slots_all_empty_st] at h
    cases hr : regs_at_st s ((i : Int)) with
    | none => simp [hr] at h
    | some p =>
      obtain ⟨v, s2⟩ := p
      have hs2 : s2 = s := regs_at_st_state s _ v s2 hr
      simp only [hr] at h
      by_cases hv : v = EMPTY
      · rw [if_pos hv] at h
        exact (ih (i + 1) s2 s1 h).trans hs2
      · rw [if_neg hv] at h
        exact absurd h (by simp)

theorem offset_scan_st_state (rnr : Int) :
    ∀ (n : Nat) (s : FpuStackSim) (d : Int) (s1 : FpuStackSim),
      offset_scan_st rnr s n = some (d, s1) → s1 = s := by
  intro n
  induction n with
  | zero =>
    intro s d s1 h
    simp [offset_scan_st] at h
  | succ k ih =>
    intro s d s1 h
    simp only [offset_scan_st] at h
    cases hr : regs_at_st s ((k : Int)) with
    | none => simp [hr] at h
    | some p =>
      obtain ⟨v, s2⟩ := p
      have hs2 : s2 = s := regs_at_st_state s _ v s2 hr
      simp only [hr] at h
      by_cases hv : v = rnr
      · rw [if_pos hv] at h
        simp at h
        exact h.2.symm.trans hs2
      · rw [if_neg hv] at h
        exact (ih s2 d s1 h).trans hs2

/-- C8: the query operations — `contains`, `is_empty`, `offset_from_tos`
and the depth-relative read `get_slot` — leave the entire stack state
(size counter and all 8 slots) unchanged whenever they complete: the
state each state-threaded embedding hands back is the input state
itself.  Only the mutators produce new states. -/
theorem c8_queries_are_pure (s : FpuStackSim) (rnr rnr2 off : Int)
    (b e : Bool) (d w : Int) (s1 s2 s3 s4 : FpuStackSim)
    (h1 : contains_st s rnr = some (b, s1))
    (h2 : is_empty_st s = some (e, s2))
    (h3 : offset_from_tos_st s rnr2 = some (d, s3))
    (h4 : get_slot_st s off = some (w, s4)) :
    s1 = s ∧ s2 = s ∧ s3 = s ∧ s4 = s := by
  refine ⟨contains_scan_st_state rnr _ 0 s b s1 h1, ?_,
    offset_scan_st_state rnr2 _ s d s3 h3,
    regs_at_st_state s _ w s4 h4⟩
  unfold is_empty_st at h2
  by_cases hsz : s.stack_size = 0
  · rw [if_pos hsz] at h2
    cases he : slots_all_empty_st s 0 nof_fpu_regs.toNat with
    | none => simp [he] at h2
    | some s5 =>
      simp only [he] at h2
      simp at h2
      exact h2.2.symm.trans (slots_all_empty_st_state _ 0 s s5 he)
  · rw [if_neg hsz] at h2
    simp at h2
    exact h2.2.symm

theorem c8_queries_are_pure_witness :
    contains_st ⟨2, [5, 7, -1, -1, -1, -1, -1, -1]⟩ 5 =
      some (true, ⟨2, [5, 7, -1, -1, -1, -1, -1, -1]⟩) ∧
    is_empty_st ⟨2, [5, 7, -1, -1, -1, -1, -1, -1]⟩ =
      some (false, ⟨2, [5, 7, -1, -1, -1, -1, -1, -1]⟩) ∧
    offset_from_tos_st ⟨2, [5, 7, -1, -1, -1, -1, -1, -1]⟩ 7 =
      some (0, ⟨2, [5, 7, -1, -1, -1, -1, -1, -1]⟩) ∧
    get_slot_st ⟨2, [5, 7, -1, -1, -1, -1, -1, -1]⟩ 0 =
      some (7, ⟨2, [5, 7, -1, -1, -1, -1, -1, -1]⟩) ∧
    ((⟨2, [5, 7, -1, -1, -1, -1, -1, -1]⟩ : FpuStackSim) =
        ⟨2, [5, 7, -1, -1, -1, -1, -1, -1]⟩ ∧
      (⟨2, [5, 7, -1, -1, -1, -1, -1, -1]⟩ : FpuStackSim) =
        ⟨2, [5, 7, -1, -1, -1, -1, -1, -1]⟩ ∧
      (⟨2, [5, 7, -1, -1, -1, -1, -1, -1]⟩ : FpuStackSim) =
        ⟨2, [5, 7, -1, -1, -1, -1, -1, -1]⟩ ∧
      (⟨2, [5, 7, -1, -1, -1, -1, -1, -1]⟩ : FpuStackSim) =
        ⟨2, [5, 7, -1, -1, -1, -1, -1, -1]⟩) :=
  ⟨by decide, by decide, by decide, by decide,
    c8_queries_are_pure _ 5 7 0 true false 0 7 _ _ _ _ (by decide) (by decide)
      (by decide) (by decide)⟩

/-! ### C5 — depth lookup after a push, and in general -/

/-- Evaluation of `push` when the stack is not full and the slot at
`stack_size` is empty. -/
theorem push_eq (s : FpuStackSim) (w : Int) (hlen : s.regs.length = 8)
    (h0 : 0 ≤ s.stack_size) (h8 : s.stack_size < 8)
    (he : slotAt s s.stack_size.toNat = EMPTY) :
    push s w = some ⟨s.stack_size + 1, s.regs.set s.stack_size.toNat w⟩ := by
  unfold push
  simp only [regs_at_some s s.stack_size hlen h0 h8, he]
  simp only [if_true]
  simp only [set_regs_at_some s s.stack_size w h0 h8]
  unfold inc_stack_size nof_fpu_regs
  rw [if_pos (by omega : s.stack_size + 1 ≤ (8 : Int))]

theorem offset_scan_found (s : FpuStackSim) (v : Int)
    (hlen : s.regs.length = 8) :
    ∀ n : Nat, n ≤ 8 → (∃ i : Nat, i < n ∧ slotAt s i = v) →
      ∃ i : Nat, i < n ∧ slotAt s i = v ∧
        (∀ j : Nat, i < j → j < n → slotAt s j ≠ v) ∧
        offset_scan s v n = some (tos_index s - (i : Int)) := by
  intro n
  induction n with
  | zero =>
    rintro _ ⟨i, hi, _⟩
    omega
  | succ k ih =>
    intro hn hex
    have hread : regs_at s ((k : Int)) = some (slotAt s k) :=
      regs_at_some s _ hlen (by omega) (by omega)
    by_cases hk : slotAt s k = v
    · refine ⟨k, by omega, hk, ?_, ?_⟩
      · intro j hj1 hj2
        omega
      · simp only [offset_scan, hread]
        rw [if_pos hk]
    · obtain ⟨i, hi, hiv⟩ := hex
      have hik : i < k := by
        rcases Nat.lt_succ_iff_lt_or_eq.mp hi with h | h
        · exact h
        · rw [h] at hiv
          exact absurd hiv hk
      obtain ⟨i0, hi0, hv0, hmax, heq⟩ := ih (by omega) ⟨i, hik, hiv⟩
      refine ⟨i0, by omega, hv0, ?_, ?_⟩
      · intro j hj1 hj2
        rcases Nat.lt_succ_iff_lt_or_eq.mp hj2 with h | h
        · exact hmax j hj1 h
        · rw [h]
          exact hk
      · simp only [offset_scan, hread]
        rw [if_neg hk]
        exact heq

/-- C5: (a) when a `push(w)` succeeds, `offset_from_tos(w)` on the
resulting state returns 0 — the value just pushed sits at depth 0;
(b) in general, whenever `v` occupies some slot, `offset_from_tos(v)`
returns the distance from the top of the topmost occupied slot holding
`v` — the first hit when scanning from the top slot down to the
bottom. -/
theorem c5_push_then_depth_zero (s : FpuStackSim) (v w : Int)
    (hlen : s.regs.length = 8) (h0 : 0 ≤ s.stack_size)
    (h8 : s.stack_size ≤ 8) :
    (s.stack_size < 8 → slotAt s s.stack_size.toNat = EMPTY →
      ∃ s1, push s w = some s1 ∧ offset_from_tos s1 w = some 0) ∧
    ((∃ i : Nat, i < s.stack_size.toNat ∧ slotAt s i = v) →
      ∃ i : Nat, i < s.stack_size.toNat ∧ slotAt s i = v ∧
        (∀ j : Nat, i < j → j < s.stack_size.toNat → slotAt s j ≠ v) ∧
        offset_from_tos s v = some (tos_index s - (i : Int))) := by
  constructor
  · intro hlt he
    refine ⟨_, push_eq s w hlen h0 hlt he, ?_⟩
    have hslot : slotAt ⟨s.stack_size + 1, s.regs.set s.stack_size.toNat w⟩
        s.stack_size.toNat = w :=
      getD_set_self s.regs s.stack_size.toNat w (by omega)
    have hread : regs_at ⟨s.stack_size + 1, s.regs.set s.stack_size.toNat w⟩
        ((s.stack_size.toNat : Int)) = some w := by
      have hr := regs_at_some ⟨s.stack_size + 1, s.regs.set s.stack_size.toNat w⟩
        ((s.stack_size.toNat : Int)) (by simp only [List.length_set]; exact hlen)
        (by omega) (by omega)
      rwa [show ((s.stack_size.toNat : Int)).toNat = s.stack_size.toNat from by
        omega, hslot] at hr
    have hts : ((s.stack_size + 1).toNat) = s.stack_size.toNat + 1 := by omega
    unfold offset_from_tos
    dsimp only
    rw [hts]
    simp only [offset_scan, hread]
    simp only [if_true]
    have hz : tos_index ⟨s.stack_size + 1, s.regs.set s.stack_size.toNat w⟩ -
        (s.stack_size.toNat : Int) = 0 := by
      dsimp only [tos_index]
      omega
    rw [hz]
  · intro hex
    exact offset_scan_found s v hlen s.stack_size.toNat (by omega) hex

theorem c5_push_then_depth_zero_witness :
    (⟨2, [5, 7, -1, -1, -1, -1, -1, -1]⟩ : FpuStackSim).regs.length = 8 ∧
    (0 : Int) ≤ (⟨2, [5, 7, -1, -1, -1, -1, -1, -1]⟩ : FpuStackSim).stack_size ∧
    (⟨2, [5, 7, -1, -1, -1, -1, -1, -1]⟩ : FpuStackSim).stack_size ≤ 8 ∧
    (((⟨2, [5, 7, -1, -1, -1, -1, -1, -1]⟩ : FpuStackSim).stack_size < 8 →
        slotAt ⟨2, [5, 7, -1, -1, -1, -1, -1, -1]⟩
          (⟨2, [5, 7, -1, -1, -1, -1, -1, -1]⟩ :
            FpuStackSim).stack_size.toNat = EMPTY →
        ∃ s1, push ⟨2, [5, 7, -1, -1, -1, -1, -1, -1]⟩ 9 = some s1 ∧
          offset_from_tos s1 9 = some 0) ∧
      ((∃ i : Nat, i < (⟨2, [5, 7, -1, -1, -1, -1, -1, -1]⟩ :
            FpuStackSim).stack_size.toNat ∧
          slotAt ⟨2, [5, 7, -1, -1, -1, -1, -1, -1]⟩ i = 5) →
        ∃ i : Nat, i < (⟨2, [5, 7, -1, -1, -1, -1, -1, -1]⟩ :
            FpuStackSim).stack_size.toNat ∧
          slotAt ⟨2, [5, 7, -1, -1, -1, -1, -1, -1]⟩ i = 5 ∧
          (∀ j : Nat, i < j → j < (⟨2, [5, 7, -1, -1, -1, -1, -1, -1]⟩ :
              FpuStackSim).stack_size.toNat →
            slotAt ⟨2, [5, 7, -1, -1, -1, -1, -1, -1]⟩ j ≠ 5) ∧
          offset_from_tos ⟨2, [5, 7, -1, -1, -1, -1, -1, -1]⟩ 5 =
            some (tos_index ⟨2, [5, 7, -1, -1, -1, -1, -1, -1]⟩ - (i : Int)))) :=
  ⟨rfl, by decide, by decide,
    c5_push_then_depth_zero _ 5 9 rfl (by decide) (by decide)⟩

/-! ### C4 — rename -/

/-- Characterization of the `rename` loop when `new_rnr` does not occur
in the scanned range: the loop completes, rewrites exactly the slots
holding `old_rnr`, and reports whether it rewrote any. -/
theorem rename_scan_eq (old_rnr new_rnr : Int) :
    ∀ (n i : Nat) (s : FpuStackSim) (found : Bool),
      s.regs.length = 8 → i + n ≤ 8 →
      (∀ j : Nat, i ≤ j → j < i + n → slotAt s j ≠ new_rnr) →
      ∃ s1 f, rename_scan old_rnr new_rnr s i n found = some (s1, f) ∧
        (f = true ↔ (found = true ∨
          ∃ j : Nat, i ≤ j ∧ j < i + n ∧ slotAt s j = old_rnr)) ∧
        s1.stack_size = s.stack_size ∧ s1.regs.length = 8 ∧
        (∀ j : Nat, slotAt s1 j =
          if i ≤ j ∧ j < i + n ∧ slotAt s j = old_rnr then new_rnr
          else slotAt s j) := by
  intro n
  induction n with
  | zero =>
    intro i s found hlen hb habs
    refine ⟨s, found, rfl, ?_, rfl, hlen, ?_⟩
    · constructor
      · exact fun h => Or.inl h
      · rintro (h | ⟨j, hj1, hj2, _⟩)
        · exact h
        · omega
    · intro j
      rw [if_neg (fun h => by omega)]
  | succ k ih =>
    intro i s found hlen hb habs
    have hread : regs_at s ((i : Int)) = some (slotAt s i) :=
      regs_at_some s _ hlen (by omega) (by omega)
    have hinew : slotAt s i ≠ new_rnr := habs i (by omega) (by omega)
    by_cases hold : slotAt s i = old_rnr
    · have hset : set_regs_at s ((i : Int)) new_rnr =
          some { s with regs := s.regs.set i new_rnr } :=
        set_regs_at_some s _ new_rnr (by omega) (by omega)
      have hs2i : slotAt { s with regs := s.regs.set i new_rnr } i = new_rnr :=
        getD_set_self s.regs i new_rnr (by omega)
      have hs2j : ∀ j : Nat, j ≠ i →
          slotAt { s with regs := s.regs.set i new_rnr } j = slotAt s j :=
        fun j hj => getD_set_ne s.regs i j new_rnr (fun h => hj h.symm)
      obtain ⟨s1, f, heq, hiff, hsz, hlen1, hchar⟩ :=
        ih (i + 1) { s with regs := s.regs.set i new_rnr } true
          (by simp only [List.length_set]; exact hlen) (by omega)
          (fun j hj1 hj2 => by
            rw [hs2j j (by omega)]
            exact habs j (by omega) (by omega))
      refine ⟨s1, f, ?_, ?_, hsz, hlen1, ?_⟩
      · simp only [rename_scan, hread]
        rw [if_neg hinew, if_pos hold]
        simp only [hset]
        exact heq
      · have hf : f = true := hiff.mpr (Or.inl rfl)
        rw [hf]
        exact iff_of_true rfl (Or.inr ⟨i, by omega, by omega, hold⟩)
      · intro j
        rcases Nat.lt_trichotomy j i with hj | hj | hj
        · rw [hchar j, if_neg (fun h => by omega),
            if_neg (fun h => by omega), hs2j j (by omega)]
        · subst hj
          rw [hchar j, if_neg (fun h => by omega), hs2i,
            if_pos ⟨by omega, by omega, hold⟩]
        · rw [hchar j, hs2j j (by omega)]
          by_cases hc : slotAt s j = old_rnr
          · by_cases hc2 : j < i + 1 + k
            · rw [if_pos ⟨by omega, by omega, hc⟩,
                if_pos ⟨by omega, by omega, hc⟩]
            · rw [if_neg (fun h => by omega), if_neg (fun h => by omega)]
          · rw [if_neg (fun h => hc h.2.2), if_neg (fun h => hc h.2.2)]
    · obtain ⟨s1, f, heq, hiff, hsz, hlen1, hchar⟩ :=
        ih (i + 1) s found hlen (by omega)
          (fun j hj1 hj2 => habs j (by omega) (by omega))
      refine ⟨s1, f, ?_, ?_, hsz, hlen1, ?_⟩
      · simp only [rename_scan, hread]
        rw [if_neg hinew, if_neg hold]
        exact heq
      · rw [hiff]
        constructor
        · rintro (h | ⟨j, hj1, hj2, hjv⟩)
          · exact Or.inl h
          · exact Or.inr ⟨j, by omega, by omega, hjv⟩
        · rintro (h | ⟨j, hj1, hj2, hjv⟩)
          · exact Or.inl h
          · refine Or.inr ⟨j, ?_, by omega, hjv⟩
            rcases Nat.lt_or_ge j (i + 1) with hji | hji
            · have : j = i := by omega
              rw [this] at hjv
              exact absurd hjv hold
            · exact hji
      · intro j
        rw [hchar j]
        by_cases hc : slotAt s j = old_rnr
        · by_cases hc2 : i + 1 ≤ j ∧ j < i + 1 + k
          · rw [if_pos ⟨hc2.1, hc2.2, hc⟩, if_pos ⟨by omega, by omega, hc⟩]
          · have hji : ¬(i ≤ j ∧ j < i + (k + 1) ∧ slotAt s j = old_rnr) := by
              rintro ⟨h1, h2, _⟩
              rcases Nat.lt_or_ge j (i + 1) with hji | hji
              · have : j = i := by omega
                rw [this] at hc
                exact hold hc
              · exact hc2 ⟨hji, by omega⟩
            rw [if_neg (fun h => hc2 ⟨h.1, h.2.1⟩), if_neg hji]
        · rw [if_neg (fun h => hc h.2.2), if_neg (fun h => hc h.2.2)]

/-- The `rename` loop dies in the `assert(regs_at(i) != new_rnr)` when
`new_rnr` occurs anywhere in the scanned range. -/
theorem rename_scan_none_of_new_present (old_rnr new_rnr : Int) :
    ∀ (n i : Nat) (s : FpuStackSim) (found : Bool),
      s.regs.length = 8 → i + n ≤ 8 →
      (∃ j : Nat, i ≤ j ∧ j < i + n ∧ slotAt s j = new_rnr) →
      rename_scan old_rnr new_rnr s i n found = none := by
  intro n
  induction n with
  | zero =>
    rintro i s found _ _ ⟨j, hj1, hj2, _⟩
    omega
  | succ k ih =>
    rintro i s found hlen hb ⟨j, hj1, hj2, hjv⟩
    have hread : regs_at s ((i : Int)) = some (slotAt s i) :=
      regs_at_some s _ hlen (by omega) (by omega)
    by_cases hi : slotAt s i = new_rnr
    · simp only [rename_scan, hread]
      rw [if_pos hi]
    · have hji : i + 1 ≤ j := by
        rcases Nat.lt_or_ge j (i + 1) with h | h
        · have : j = i := by omega
          rw [this] at hjv
          exact absurd hjv hi
        · exact h
      by_cases hold : slotAt s i = old_rnr
      · have hset : set_regs_at s ((i : Int)) new_rnr =
            some { s with regs := s.regs.set i new_rnr } :=
          set_regs_at_some s _ new_rnr (by omega) (by omega)
        simp only [rename_scan, hread]
        rw [if_neg hi, if_pos hold]
        simp only [hset]
        refine ih (i + 1) _ true (by simp only [List.length_set]; exact hlen)
          (by omega) ⟨j, hji, by omega, ?_⟩
        exact (getD_set_ne s.regs i j new_rnr (by omega)).trans hjv
      · simp only [rename_scan, hread]
        rw [if_neg hi, if_neg hold]
        exact ih (i + 1) s found hlen (by omega) ⟨j, hji, by omega, hjv⟩

/-- Characterization of the `contains` loop. -/
theorem contains_scan_eq (s : FpuStackSim) (r : Int)
    (hlen : s.regs.length = 8) :
    ∀ (n i : Nat), i + n ≤ 8 →
      ((∃ j : Nat, i ≤ j ∧ j < i + n ∧ slotAt s j = r) →
        contains_scan s r i n = some true) ∧
      ((∀ j : Nat, i ≤ j → j < i + n → slotAt s j ≠ r) →
        contains_scan s r i n = some false) := by
  intro n
  induction n with
  | zero =>
    intro i _
    constructor
    · rintro ⟨j, hj1, hj2, _⟩
      omega
    · intro _
      rfl
  | succ k ih =>
    intro i hb
    have hread : regs_at s ((i : Int)) = some (slotAt s i) :=
      regs_at_some s _ hlen (by omega) (by omega)
    constructor
    · rintro ⟨j, hj1, hj2, hjv⟩
      by_cases hi : slotAt s i = r
      · simp only [contains_scan, hread]
        rw [if_pos hi]
      · have hji : i + 1 ≤ j := by
          rcases Nat.lt_or_ge j (i + 1) with h | h
          · have : j = i := by omega
            rw [this] at hjv
            exact absurd hjv hi
          · exact h
        simp only [contains_scan, hread]
        rw [if_neg hi]
        exact (ih (i + 1) (by omega)).1 ⟨j, hji, by omega, hjv⟩
    · intro habs
      have hi : slotAt s i ≠ r := habs i (by omega) (by omega)
      simp only [contains_scan, hread]
      rw [if_neg hi]
      exact (ih (i + 1) (by omega)).2 (fun j h1 h2 => habs j (by omega) (by omega))

/-- C4: on a state where `old` occupies exactly one occupied slot and
`new` occupies none, `rename(old, new)` succeeds, after which
`contains(new)` is true and `contains(old)` is false; `rename(a, a)` is
a no-op for any `a`; and — for any pair of distinct names — calling
`rename` when the old name is absent from the occupied range, or when
the new name is already present there, dies in a fatal assertion. -/
theorem c4_rename_spec (s : FpuStackSim) (old_rnr new_rnr : Int)
    (hlen : s.regs.length = 8) (h0 : 0 ≤ s.stack_size)
    (h8 : s.stack_size ≤ 8) (k : Nat) (hk : k < s.stack_size.toNat)
    (hks : slotAt s k = old_rnr)
    (huniq : ∀ j : Nat, j < s.stack_size.toNat → slotAt s j = old_rnr → j = k)
    (habs : ∀ j : Nat, j < s.stack_size.toNat → slotAt s j ≠ new_rnr) :
    (∃ s1, rename s old_rnr new_rnr = some s1 ∧
      contains s1 new_rnr = some true ∧ contains s1 old_rnr = some false) ∧
    (∀ a : Int, rename s a a = some s) ∧
    (∀ o nw : Int, o ≠ nw →
      (∀ j : Nat, j < s.stack_size.toNat → slotAt s j ≠ o) →
      rename s o nw = none) ∧
    (∀ o nw : Int, o ≠ nw →
      (∃ j : Nat, j < s.stack_size.toNat ∧ slotAt s j = nw) →
      rename s o nw = none) := by
  have hne : old_rnr ≠ new_rnr := by
    intro h
    exact habs k hk (h ▸ hks)
  refine ⟨?_, ?_, ?_, ?_⟩
  · obtain ⟨s1, f, heq, hiff, hsz, hlen1, hchar⟩ :=
      rename_scan_eq old_rnr new_rnr s.stack_size.toNat 0 s false hlen
        (by omega) (fun j hj1 hj2 => habs j (by omega))
    have hf : f = true := hiff.mpr (Or.inr ⟨k, by omega, by omega, hks⟩)
    refine ⟨s1, ?_, ?_, ?_⟩
    · unfold rename
      rw [if_neg hne]
      simp only [heq, hf]
      simp only [if_true]
    · have hfuel : s1.stack_size.toNat = s.stack_size.toNat := by
        rw [hsz]
      unfold contains
      rw [hfuel]
      refine (contains_scan_eq s1 new_rnr hlen1 s.stack_size.toNat 0
        (by omega)).1 ⟨k, by omega, by omega, ?_⟩
      rw [hchar k, if_pos ⟨by omega, by omega, hks⟩]
    · have hfuel : s1.stack_size.toNat = s.stack_size.toNat := by
        rw [hsz]
      unfold contains
      rw [hfuel]
      refine (contains_scan_eq s1 old_rnr hlen1 s.stack_size.toNat 0
        (by omega)).2 (fun j hj1 hj2 => ?_)
      rw [hchar j]
      by_cases hc : slotAt s j = old_rnr
      · rw [if_pos ⟨by omega, by omega, hc⟩]
        exact fun h => hne h.symm
      · rw [if_neg (fun h => hc h.2.2)]
        exact hc
  · intro a
    unfold rename
    rw [if_pos rfl]
  · intro o nw honw habso
    unfold rename
    rw [if_neg honw]
    by_cases hpres : ∃ j : Nat, j < s.stack_size.toNat ∧ slotAt s j = nw
    · obtain ⟨j, hj, hjv⟩ := hpres
      rw [rename_scan_none_of_new_present o nw s.stack_size.toNat 0 s false
        hlen (by omega) ⟨j, by omega, by omega, hjv⟩]
    · obtain ⟨s1, f, heq, hiff, hsz, hlen1, hchar⟩ :=
        rename_scan_eq o nw s.stack_size.toNat 0 s false hlen (by omega)
          (fun j hj1 hj2 => fun h => hpres ⟨j, by omega, h⟩)
      have hf : f = false := by
        cases hfc : f with
        | false => rfl
        | true =>
          rcases hiff.mp hfc with h | ⟨j, hj1, hj2, hjv⟩
          · exact absurd h (by simp)
          · exact absurd hjv (habso j (by omega))
      simp only [heq, hf]
      rw [if_neg (by simp)]
  · intro o nw honw hpres
    obtain ⟨j, hj, hjv⟩ := hpres
    unfold rename
    rw [if_neg honw]
    rw [rename_scan_none_of_new_present o nw s.stack_size.toNat 0 s false hlen
      (by omega) ⟨j, by omega, by omega, hjv⟩]

theorem c4_rename_spec_witness :
    (⟨2, [5, 7, -1, -1, -1, -1, -1, -1]⟩ : FpuStackSim).regs.length = 8 ∧
    (0 : Int) ≤ (⟨2, [5, 7, -1, -1, -1, -1, -1, -1]⟩ : FpuStackSim).stack_size ∧
    (⟨2, [5, 7, -1, -1, -1, -1, -1, -1]⟩ : FpuStackSim).stack_size ≤ 8 ∧
    slotAt ⟨2, [5, 7, -1, -1, -1, -1, -1, -1]⟩ 0 = 5 ∧
    ((∃ s1, rename ⟨2, [5, 7, -1, -1, -1, -1, -1, -1]⟩ 5 9 = some s1 ∧
        contains s1 9 = some true ∧ contains s1 5 = some false) ∧
      (∀ a : Int, rename ⟨2, [5, 7, -1, -1, -1, -1, -1, -1]⟩ a a =
        some ⟨2, [5, 7, -1, -1, -1, -1, -1, -1]⟩) ∧
      (∀ o nw : Int, o ≠ nw →
        (∀ j : Nat, j < (⟨2, [5, 7, -1, -1, -1, -1, -1, -1]⟩ :
            FpuStackSim).stack_size.toNat →
          slotAt ⟨2, [5, 7, -1, -1, -1, -1, -1, -1]⟩ j ≠ o) →
        rename ⟨2, [5, 7, -1, -1, -1, -1, -1, -1]⟩ o nw = none) ∧
      (∀ o nw : Int, o ≠ nw →
        (∃ j : Nat, j < (⟨2, [5, 7, -1, -1, -1, -1, -1, -1]⟩ :
            FpuStackSim).stack_size.toNat ∧
          slotAt ⟨2, [5, 7, -1, -1, -1, -1, -1, -1]⟩ j = nw) →
        rename ⟨2, [5, 7, -1, -1, -1, -1, -1, -1]⟩ o nw = none)) :=
  ⟨rfl, by decide, by decide, by decide,
    c4_rename_spec _ 5 9 rfl (by decide) (by decide) 0 (by decide) (by decide)
      (by decide) (by decide)⟩

/-! ### C1 — push/pop sequences and the core invariant -/

/-- Evaluation of `pop` on a non-empty well-formed stack. -/
theorem pop_eq (s : FpuStackSim) (hlen : s.regs.length = 8)
    (h0 : 0 < s.stack_size) (h8 : s.stack_size ≤ 8) :
    pop s =
      some ⟨s.stack_size - 1, s.regs.set (s.stack_size - 1).toNat EMPTY⟩ := by
  unfold pop tos_index
  simp only [set_regs_at_some s (s.stack_size - 1) EMPTY (by omega) (by omega)]
  unfold dec_stack_size
  rw [if_pos (show (0 : Int) ≤ s.stack_size - 1 by omega)]

/-- A successful push of a non-sentinel value preserves the invariant. -/
theorem Inv_push (s : FpuStackSim) (r : Int) (hInv : Inv s)
    (hlt : s.stack_size < 8) (hr : r ≠ EMPTY) :
    Inv ⟨s.stack_size + 1, s.regs.set s.stack_size.toNat r⟩ := by
  obtain ⟨hlen, h0, h8, hocc, hemp⟩ := hInv
  unfold Inv slotAt
  dsimp only
  refine ⟨by rw [List.length_set]; exact hlen, by omega, by omega, ?_, ?_⟩
  · intro i hi
    by_cases hieq : i = s.stack_size.toNat
    · subst hieq
      rw [getD_set_self s.regs _ r (by omega)]
      exact hr
    · rw [getD_set_ne s.regs _ i r (fun h => hieq h.symm)]
      exact hocc i (by omega)
  · intro i hi1 hi2
    rw [getD_set_ne s.regs _ i r (by omega)]
    exact hemp i hi1 (by omega)

/-- A successful pop preserves the invariant. -/
theorem Inv_pop (s : FpuStackSim) (hInv : Inv s) (hpos : 0 < s.stack_size) :
    Inv ⟨s.stack_size - 1, s.regs.set (s.stack_size - 1).toNat EMPTY⟩ := by
  obtain ⟨hlen, h0, h8, hocc, hemp⟩ := hInv
  unfold Inv slotAt
  dsimp only
  refine ⟨by rw [List.length_set]; exact hlen, by omega, by omega, ?_, ?_⟩
  · intro i hi
    rw [getD_set_ne s.regs _ i EMPTY (by omega)]
    exact hocc i (by omega)
  · intro i hi1 hi2
    by_cases hieq : i = (s.stack_size - 1).toNat
    · subst hieq
      rw [getD_set_self s.regs _ EMPTY (by omega)]
    · rw [getD_set_ne s.regs _ i EMPTY (fun h => hieq h.symm)]
      exact hemp i hi1 (by omega)

/-- Any valid push/pop sequence with non-sentinel values runs to
completion from an invariant state, preserves the invariant, and moves
the size counter by (#pushes − #pops). -/
theorem run_preserves (ops : List Op) :
    ∀ s : FpuStackSim, Inv s → validFromB s.stack_size ops = true →
      goodValues ops = true →
      ∃ s1, run s ops = some s1 ∧ Inv s1 ∧
        s1.stack_size = s.stack_size + pushCount ops - popCount ops := by
  induction ops with
  | nil =>
    intro s hInv _ _
    refine ⟨s, rfl, hInv, ?_⟩
    simp only [pushCount, popCount]
    ring
  | cons o rest ih =>
    intro s hInv hval hgood
    cases o with
    | push r =>
      simp only [validFromB, Bool.and_eq_true, decide_eq_true_eq] at hval
      obtain ⟨hlt, hval2⟩ := hval
      simp only [goodValues, Bool.and_eq_true, decide_eq_true_eq] at hgood
      obtain ⟨hr, hgood2⟩ := hgood
      have hlen := hInv.1
      have h0 := hInv.2.1
      have he : slotAt s s.stack_size.toNat = EMPTY :=
        hInv.2.2.2.2 s.stack_size.toNat (by omega) (by omega)
      have hp := push_eq s r hlen h0 hlt he
      have hInv1 := Inv_push s r hInv hlt hr
      obtain ⟨s2, hrun, hInv2, hsz⟩ :=
        ih ⟨s.stack_size + 1, s.regs.set s.stack_size.toNat r⟩ hInv1 hval2
          hgood2
      refine ⟨s2, ?_, hInv2, ?_⟩
      · simp only [run, runOp, hp]
        exact hrun
      · rw [hsz]
        simp only [pushCount, popCount]
        ring
    | pop =>
      simp only [validFromB, Bool.and_eq_true, decide_eq_true_eq] at hval
      obtain ⟨hpos, hval2⟩ := hval
      simp only [goodValues] at hgood
      have hlen := hInv.1
      have h8 := hInv.2.2.1
      have hp := pop_eq s hlen hpos h8
      have hInv1 := Inv_pop s hInv hpos
      obtain ⟨s2, hrun, hInv2, hsz⟩ :=
        ih ⟨s.stack_size - 1, s.regs.set (s.stack_size - 1).toNat EMPTY⟩ hInv1
          hval2 hgood
      refine ⟨s2, ?_, hInv2, ?_⟩
      · simp only [run, runOp, hp]
        exact hrun
      · rw [hsz]
        simp only [pushCount, popCount]
        ring

theorem validFromB_append (p q : List Op) :
    ∀ n : Int, validFromB n (p ++ q) = true → validFromB n p = true := by
  induction p with
  | nil => exact fun n _ => rfl
  | cons o rest ih =>
    intro n h
    cases o with
    | push r =>
      simp only [List.cons_append, validFromB, Bool.and_eq_true] at h ⊢
      exact ⟨h.1, ih _ h.2⟩
    | pop =>
      simp only [List.cons_append, validFromB, Bool.and_eq_true] at h ⊢
      exact ⟨h.1, ih _ h.2⟩

theorem goodValues_append (p q : List Op) :
    goodValues (p ++ q) = true → goodValues p = true := by
  induction p with
  | nil => exact fun _ => rfl
  | cons o rest ih =>
    intro h
    cases o with
    | push r =>
      simp only [List.cons_append, goodValues, Bool.and_eq_true] at h ⊢
      exact ⟨h.1, ih h.2⟩
    | pop =>
      simp only [List.cons_append, goodValues] at h ⊢
      exact ih h

/-- C1 counterexample: the one-element sequence `Push(-1)` respects the
claim's preconditions (a single push on the empty stack never exceeds
the capacity, and there is no pop), the code raises no assertion, yet
afterwards `size = 1` while slot 0 — an index in `[0, size)` — holds
the empty sentinel: pushing the sentinel value `-1` itself silently
breaks the "occupied slots are non-empty" half of the invariant. -/
theorem c1_counterexample :
    validFromB 0 [Op.push (-1)] = true ∧
    run init [Op.push (-1)] = some ⟨1, [-1, -1, -1, -1, -1, -1, -1, -1]⟩ ∧
    (1 : Int) = pushCount [Op.push (-1)] - popCount [Op.push (-1)] ∧
    ¬Inv ⟨1, [-1, -1, -1, -1, -1, -1, -1, -1]⟩ ∧
    slotAt ⟨1, [-1, -1, -1, -1, -1, -1, -1, -1]⟩ 0 = EMPTY := by
  decide

/-- C1 (amended): for every sequence of pushes and pops in which pushes
never exceed the capacity 8, pops never exceed the current size, and
additionally no pushed value is the empty sentinel `-1`, the run from
the initial state raises no assertion; after every prefix — hence after
every step and after the whole sequence — the reached state satisfies
the core invariant (slots `[0, size)` non-empty, slots `[size, 8)`
empty) and its size counter equals the number of pushes minus the
number of pops executed so far. -/
theorem c1_push_pop_invariant (ops p q : List Op) (hsplit : ops = p ++ q)
    (hvalid : validFromB 0 ops = true) (hgood : goodValues ops = true) :
    ∃ s1, run init p = some s1 ∧ Inv s1 ∧
      s1.stack_size = pushCount p - popCount p := by
  subst hsplit
  have hv : validFromB 0 p = true := validFromB_append p q 0 hvalid
  have hg : goodValues p = true := goodValues_append p q hgood
  have hInit : Inv init := by decide
  obtain ⟨s1, hrun, hInv1, hsz⟩ := run_preserves p init hInit hv hg
  refine ⟨s1, hrun, hInv1, ?_⟩
  rw [hsz]
  simp only [init]
  ring

theorem c1_push_pop_invariant_witness :
    validFromB 0 [Op.push 5, Op.push 7, Op.pop] = true ∧
    goodValues [Op.push 5, Op.push 7, Op.pop] = true ∧
    ∃ s1, run init [Op.push 5, Op.push 7] = some s1 ∧ Inv s1 ∧
      s1.stack_size =
        pushCount [Op.push 5, Op.push 7] - popCount [Op.push 5, Op.push 7] :=
  ⟨by decide, by decide,
    c1_push_pop_invariant [Op.push 5, Op.push 7, Op.pop]
      [Op.push 5, Op.push 7] [Op.pop] rfl (by decide) (by decide)⟩

end FpuSim
